import Mathlib

/-!
# RKnowledge — verification of spec claims against a shallow embedding

This file embeds the parts of the RKnowledge pipeline that the claims
C1–C10 speak about:

* `src/llm/batch_processor.rs` — batching, overflow classification,
  per-chunk fallback, progress persistence (C1, C2, C5, C9);
* `src/parser/adaptive_chunker.rs` — the model-context lookup table (C3);
* `src/graph/builder.rs` — relation aggregation and contextual
  proximity (C4);
* `src/graph/analytics.rs` — weighted shortest path (C6, C10);
* `src/graph/community.rs` — label propagation (C8);
* `src/llm/parsing.rs` — JSON array extraction (C7).

Modelling conventions:

* Rust `String`/`&str` is modelled by Lean `String` (for the formatting
  and lookup code) or `List Char` (for the character-scanning parser).
  The embedding works at character level; it agrees with the byte-level
  Rust code on ASCII data, and all concrete inputs used below are ASCII.
* `f64` edge weights are modelled by `ℚ`.  Every weight the embedded
  code manipulates in the claims below is a small dyadic value
  (sums of 4.0 and 1.0, reciprocals of 2 and 4), on which binary
  floating point arithmetic is exact, so the rational model is faithful.
* Fallible Rust functions returning `anyhow::Result` are modelled with
  `Except String`.  The LLM network call is a parameter
  (`Llm := String → Except String (List Relation)`), as are file-system
  reads, the content hash and the timestamp, none of which the claims
  constrain.
* `HashMap`/`HashSet` are modelled by association lists / lists without
  duplicates, in insertion order.  Wherever a claim's outcome could
  depend on Rust's unspecified hash-iteration order this is noted and
  the statement is phrased order-insensitively (membership, length).
-/

namespace RKnowledge

/-! ## String helpers shared by several components -/

/-- Rust `char::is_whitespace` (the Unicode `White_Space` property). -/
def rustWhitespace (c : Char) : Bool :=
  let n := c.toNat
  (0x9 ≤ n && n ≤ 0xD) || n = 0x20 || n = 0x85 || n = 0xA0 || n = 0x1680 ||
  (0x2000 ≤ n && n ≤ 0x200A) || n = 0x2028 || n = 0x2029 || n = 0x202F ||
  n = 0x205F || n = 0x3000

/-- Rust `str::to_lowercase`, at character level (`char::to_lowercase` is
the Unicode mapping; on ASCII it agrees with `Char.toLower`). -/
def toLowerStr (s : String) : String :=
  String.mk (s.data.map Char.toLower)

/-- Rust `str::trim` on a character list: drop leading and trailing
whitespace. -/
def trimChars (l : List Char) : List Char :=
  ((l.dropWhile rustWhitespace).reverse.dropWhile rustWhitespace).reverse

/-- Rust `str::trim` on `String`. -/
def trimStr (s : String) : String :=
  String.mk (trimChars s.data)

/-- `pat` occurs as a contiguous sublist of `l`. -/
def isInfixSub (pat l : List Char) : Bool :=
  (List.range (l.length + 1)).any fun i => pat.isPrefixOf (l.drop i)

/-- Rust `str::contains(&str)`: substring containment. -/
def containsSub (hay pat : String) : Bool :=
  isInfixSub pat.data hay.data

/-! ## `ModelContextLimits::get_context_size`
(`src/parser/adaptive_chunker.rs`).  The Rust function lowercases the
model name and returns the first `match` arm whose guard
(`m.contains(...)`) holds, in source order. -/

def getContextSize (model : String) : Nat :=
  let m := toLowerStr model
  if containsSub m "llama3.2" || containsSub m "llama-3.2" then 8192
  else if containsSub m "phi3:mini" || containsSub m "phi-3-mini" then 4096
  else if containsSub m "mistral" then 32768
  else if containsSub m "qwen2.5:3b" then 8192
  else if containsSub m "qwen2.5:7b" then 32768
  else if containsSub m "gemma2:2b" then 4096
  else if containsSub m "gemma2:9b" then 8192
  else if containsSub m "llama3.3" || containsSub m "llama-3.3" then 128000
  else if containsSub m "qwen2.5:72b" then 32768
  else if containsSub m "claude-3-opus" then 200000
  else if containsSub m "claude-3-sonnet" then 200000
  else if containsSub m "claude-3-haiku" then 200000
  else if containsSub m "gpt-4" then 8192
  else if containsSub m "gpt-4o" then 128000
  else if containsSub m "gpt-3.5" then 16385
  else if containsSub m "gemini" then 1048576
  else 4096

/-! ## Chunks and relations -/

/-- `Chunk` from `src/parser/adaptive_chunker.rs`. -/
structure Chunk where
  text : String
  estimatedTokens : Nat
  chunkIndex : Nat
  parentId : Option String
deriving DecidableEq, Repr

/-- `Relation` from `src/llm/mod.rs` (the extraction record). -/
structure Relation where
  node_1 : String
  node_1_type : Option String
  node_2 : String
  node_2_type : Option String
  edge : String
deriving DecidableEq, Repr

/-! ## `BatchProcessor::format_batch_for_processing`
(`src/llm/batch_processor.rs` lines 257–273).  A header line, the
separator line, then for each chunk the marker `\n---CHUNK_<i>---\n`
followed directly by the chunk text, and finally
`\n===END_DOCUMENT===\n`. -/

def formatBatchForProcessing (chunks : List Chunk) (source : String)
    (batchIdx : Nat) : String :=
  let r := "Document: " ++ source ++ " (Batch " ++ toString batchIdx ++ ")"
  let r := r ++ "\n===CHUNK_SEPARATOR===\n"
  let r := (chunks.enum).foldl
    (fun acc ic => acc ++ "\n---CHUNK_" ++ toString ic.1 ++ "---\n" ++ ic.2.text) r
  r ++ "\n===END_DOCUMENT===\n"

/-- The payload format as the spec's §6 template describes it: a blank
line separates each chunk's text from the next marker, and the payload
ends with the `===END_DOCUMENT===` line.  (Refinement definition built
from the spec's words, to be compared with
`formatBatchForProcessing`.) -/
def specBatchPayload (chunks : List String) (source : String)
    (batchIdx : Nat) : String :=
  "Document: " ++ source ++ " (Batch " ++ toString batchIdx ++ ")\n" ++
  "===CHUNK_SEPARATOR===\n\n" ++
  String.intercalate "\n\n"
    ((chunks.enum).map fun ic => "---CHUNK_" ++ toString ic.1 ++ "---\n" ++ ic.2) ++
  "\n===END_DOCUMENT==="

/-! ## `BatchProcessor::is_context_overflow`
(`src/llm/batch_processor.rs` lines 315–333). -/

def overflowIndicators : List String :=
  ["context length", "context window", "too long", "token limit",
   "max tokens", "exceeds", "context size", "input length",
   "too many tokens", "sequence length"]

def isContextOverflow (error : String) : Bool :=
  let errorLower := toLowerStr error
  overflowIndicators.any fun indicator => containsSub errorLower indicator

/-! ## `BatchProcessor` batch processing
(`src/llm/batch_processor.rs`).  The LLM network call
`LlmClient::extract_relations` is a parameter: a deterministic oracle
from the submitted text to either a relation list or an error message
(the fixed domain configuration is absorbed into the oracle). -/

abbrev Llm : Type := String → Except String (List Relation)

deriving instance DecidableEq for Except

/-- Fuel-driven worker for `chunksOf` (structural recursion on the
fuel, which the wrapper sets to the list length: each step consumes at
least one element). -/
def chunksOfGo : Nat → Nat → List α → List (List α)
  | _, _, [] => []
  | _, 0, _ => []
  | 0, _, _ => []
  | fuel + 1, m + 1, x :: xs =>
    (x :: xs).take (m + 1) :: chunksOfGo fuel (m + 1) ((x :: xs).drop (m + 1))

/-- Rust `slice::chunks(n)`: consecutive groups of `n` elements, last
group possibly shorter.  (`n = 0` panics in Rust and is unreachable:
`BatchProcessor::new` stores `batch_size.max(1)`; we return `[]`.) -/
def chunksOf (n : Nat) (l : List α) : List (List α) :=
  chunksOfGo l.length n l

/-- `BatchProcessor::process_single_chunk` (lines 308–312). -/
def processSingleChunk (llm : Llm) (chunk : Chunk) : Except String (List Relation) :=
  llm chunk.text

/-- `BatchProcessor::process_batch_with_retry` (lines 276–306): one LLM
call; a failure is re-labelled when classified as context overflow,
otherwise passed through — in both cases an error is returned. -/
def processBatchWithRetry (llm : Llm) (batchText : String) :
    Except String (List Relation) :=
  match llm batchText with
  | .ok relations => .ok relations
  | .error e =>
    if isContextOverflow (toLowerStr e) then
      .error "Context overflow, needs fallback"
    else
      .error e

/-- `BatchProcessor::process_chunks_in_batches` (lines 199–254): group
the chunks into batches of `batchSize`; submit each batch as one
formatted payload; on an `Err` from `process_batch_with_retry`
(whatever the error) process the batch's chunks individually, skipping
chunks whose individual call fails.  The Rust function's `Result` is
always `Ok` on this path, so the model returns the relation list. -/
def processChunksInBatches (llm : Llm) (batchSize : Nat)
    (chunks : List Chunk) (source : String) : List Relation :=
  ((chunksOf batchSize chunks).enum).foldl
    (fun allRelations ib =>
      let batchText := formatBatchForProcessing ib.2 source ib.1
      match processBatchWithRetry llm batchText with
      | .ok relations => allRelations ++ relations
      | .error _ =>
        ib.2.foldl
          (fun acc chunk =>
            match processSingleChunk llm chunk with
            | .ok relations => acc ++ relations
            | .error _ => acc)
          allRelations)
    []

/-- The relations a chunk contributes on the per-chunk fallback path:
its individual call's relations, or nothing when that call fails
(specification device for the C1 statement). -/
def chunkFallbackOutput (llm : Llm) (chunk : Chunk) : List Relation :=
  match processSingleChunk llm chunk with
  | .ok relations => relations
  | .error _ => []

/-- The relations batch `ib` contributes to
`process_chunks_in_batches`: the batch call's relations on success,
else the concatenation of the per-chunk fallback results. -/
def batchOutput (llm : Llm) (source : String) (ib : Nat × List Chunk) :
    List Relation :=
  match processBatchWithRetry llm (formatBatchForProcessing ib.2 source ib.1) with
  | .ok relations => relations
  | .error _ => (ib.2.map (chunkFallbackOutput llm)).flatten

/-- `ProcessedDoc` from `src/llm/batch_processor.rs` (lines 30–36). -/
structure ProcessedDoc where
  hash : String
  chunksProcessed : Nat
  relationsCount : Nat
  timestamp : String
deriving DecidableEq, Repr

/-- The `processed_hashes` map, `HashMap<String, ProcessedDoc>` modelled
as an association list keyed by document source. -/
abbrev ProgressMap : Type := List (String × ProcessedDoc)

def mapGet (m : ProgressMap) (k : String) : Option ProcessedDoc :=
  (m.find? fun p => p.1 = k).map Prod.snd

/-- `HashMap::insert`, modelled by prepending: `mapGet` takes the
newest binding, so lookup/contains behave exactly like the Rust map
(nothing in the embedded code deletes or iterates this map). -/
def mapInsert (m : ProgressMap) (k : String) (v : ProcessedDoc) : ProgressMap :=
  (k, v) :: m

/-- `BatchProcessor::is_already_processed` (lines 112–117). -/
def isAlreadyProcessed (m : ProgressMap) (source hash : String) : Bool :=
  match mapGet m source with
  | some doc => doc.hash = hash
  | none => false

/-- `BatchProcessor::process_documents` (lines 120–196).  The content
hash (`DefaultHasher`), the timestamp and the chunker split are
parameters — the claims do not constrain them.  For each document that
is not skipped, the chunks are processed in batches and the document is
inserted into `processed_hashes`; the returned pair is the final map
(which `save_progress` serialises verbatim to the progress file) and the
accumulated relations. -/
def processDocumentsStep (llm : Llm) (hashFn : String → String)
    (timestamp : String) (split : String → List Chunk) (batchSize : Nat)
    (st : ProgressMap × List Relation) (doc : String × String) :
    ProgressMap × List Relation :=
  let source := doc.1
  let text := doc.2
  let hash := hashFn text
  if isAlreadyProcessed st.1 source hash then
    st
  else
    let chunks := split text
    let docRelations := processChunksInBatches llm batchSize chunks source
    (mapInsert st.1 source
      ⟨hash, chunks.length, docRelations.length, timestamp⟩,
     st.2 ++ docRelations)

def processDocuments (llm : Llm) (hashFn : String → String)
    (timestamp : String) (split : String → List Chunk) (batchSize : Nat)
    (processed : ProgressMap) (documents : List (String × String)) :
    ProgressMap × List Relation :=
  documents.foldl (processDocumentsStep llm hashFn timestamp split batchSize)
    (processed, [])

/-- `BatchProcessor::load_progress` (lines 78–90), with the file system
and `serde_json` parsed abstractly: `fileExists` mirrors
`Path::new(path).exists()`, `readFile` mirrors `fs::read_to_string`, and
`parse` mirrors `serde_json::from_str`.  Both fallible steps use `?`, so
their errors propagate; the caller in the `build` command
(`src/cli/commands/build.rs` line 168) then aborts via `?` as well. -/
def loadProgress (progressFile : Option String) (fileExists : String → Bool)
    (readFile : String → Except String String)
    (parse : String → Except String ProgressMap)
    (current : ProgressMap) : Except String ProgressMap :=
  match progressFile with
  | none => .ok current
  | some path =>
    if fileExists path then
      match readFile path with
      | .error e => .error e
      | .ok content =>
        match parse content with
        | .error e => .error e
        | .ok m => .ok m
    else
      .ok current

/-! ## `GraphBuilder` (`src/graph/builder.rs`)
Edge weights (`f64`, sums of `4.0` and `1.0`) are modelled by `ℚ`; the
`HashMap`/`HashSet` state is modelled by insertion-ordered association
lists, with `HashSet::insert` adding the element only when absent. -/

/-- Rust `String` `Ord` (lexicographic on bytes; identical to the
character-level comparison on ASCII), as an executable Bool. -/
def strLtB : List Char → List Char → Bool
  | [], [] => false
  | [], _ :: _ => true
  | _ :: _, [] => false
  | a :: as, b :: bs =>
    if a.val < b.val then true
    else if b.val < a.val then false
    else strLtB as bs

def strLt (a b : String) : Bool :=
  strLtB a.data b.data

/-- `HashMap<String, String>::insert` on the list model (last writer
wins). -/
def mapInsertStr (m : List (String × String)) (k v : String) :
    List (String × String) :=
  if (m.find? fun p => p.1 = k).isSome then
    m.map fun p => if p.1 = k then (k, v) else p
  else
    m ++ [(k, v)]

/-- `EdgeData` from `src/graph/builder.rs` (lines 42–47). -/
structure EdgeData where
  relations : List String
  weight : ℚ
  chunkIds : List String
deriving DecidableEq, Repr

/-- `GraphEdge` from `src/graph/builder.rs` (lines 19–26). -/
structure GraphEdge where
  source : String
  target : String
  relation : String
  weight : ℚ
  chunkIds : List String
deriving DecidableEq, Repr

/-- The `GraphBuilder` state the claims touch: node labels in insertion
order (the key set of `node_indices`), the `node_chunks` map and the
aggregated `edges` map (`node_types` is carried for completeness). -/
structure GraphBuilder where
  nodeLabels : List String
  nodeChunks : List (String × List String)
  edges : List ((String × String) × EdgeData)
  nodeTypes : List (String × String)
deriving Repr

def GraphBuilder.new : GraphBuilder := ⟨[], [], [], []⟩

/-- Canonical key: `label.to_lowercase().trim().to_string()`. -/
def canonKey (label : String) : String :=
  trimStr (toLowerStr label)

/-- `GraphBuilder::ensure_node` (lines 66–76): register the
canonicalised label if absent. -/
def GraphBuilder.ensureNode (b : GraphBuilder) (label : String) : GraphBuilder :=
  let label := canonKey label
  if label ∈ b.nodeLabels then b
  else { b with nodeLabels := b.nodeLabels ++ [label] }

/-- `HashSet<String>::insert` on the list model. -/
def setInsert (s : List String) (x : String) : List String :=
  if x ∈ s then s else s ++ [x]

/-- Update `node_chunks.entry(node).or_default().insert(chunk_id)`. -/
def GraphBuilder.recordChunk (b : GraphBuilder) (node chunkId : String) :
    GraphBuilder :=
  if (b.nodeChunks.find? fun p => p.1 = node).isSome then
    { b with nodeChunks :=
        b.nodeChunks.map fun p =>
          if p.1 = node then (p.1, setInsert p.2 chunkId) else p }
  else
    { b with nodeChunks := b.nodeChunks ++ [(node, [chunkId])] }

/-- `edges.entry(key).or_insert_with(empty)` followed by the mutation
`f`; a fresh entry is appended (the Rust map is unordered — downstream
statements are order-insensitive). -/
def GraphBuilder.updateEdge (b : GraphBuilder) (key : String × String)
    (f : EdgeData → EdgeData) : GraphBuilder :=
  if (b.edges.find? fun p => p.1 = key).isSome then
    { b with edges := b.edges.map fun p => if p.1 = key then (p.1, f p.2) else p }
  else
    { b with edges := b.edges ++ [(key, f ⟨[], 0, []⟩)] }

/-- `GraphBuilder::add_relations` (lines 79–133). -/
def GraphBuilder.addRelations (b : GraphBuilder) (relations : List Relation)
    (chunkId : String) : GraphBuilder :=
  relations.foldl
    (fun b relation =>
      let node_1 := canonKey relation.node_1
      let node_2 := canonKey relation.node_2
      if node_1 = "" || node_2 = "" || node_1 = node_2 then b
      else
        let b := b.ensureNode node_1
        let b := b.ensureNode node_2
        let b :=
          match relation.node_1_type with
          | some t =>
            let t := canonKey t
            if t ≠ "" then { b with nodeTypes := mapInsertStr b.nodeTypes node_1 t } else b
          | none => b
        let b :=
          match relation.node_2_type with
          | some t =>
            let t := canonKey t
            if t ≠ "" then { b with nodeTypes := mapInsertStr b.nodeTypes node_2 t } else b
          | none => b
        let b := b.recordChunk node_1 chunkId
        let b := b.recordChunk node_2 chunkId
        let key := if strLt node_1 node_2 then (node_1, node_2) else (node_2, node_1)
        b.updateEdge key fun d =>
          { relations := d.relations ++ [relation.edge]
            weight := d.weight + 4
            chunkIds := setInsert d.chunkIds chunkId })
    b

/-- `GraphBuilder::calculate_contextual_proximity` (lines 137–186):
invert `node_chunks` into `chunk_id → [nodes]`, then for each chunk and
each ordered index pair `i < j` of its node list update the unordered
pair's edge: append `"contextual proximity"` only under the source's
double condition, always add `1.0` to the weight and insert the chunk
id. -/
def GraphBuilder.calculateContextualProximity (b : GraphBuilder) : GraphBuilder :=
  let chunkNodes : List (String × List String) :=
    b.nodeChunks.foldl
      (fun acc p =>
        p.2.foldl
          (fun acc chunkId =>
            if (acc.find? fun q => q.1 = chunkId).isSome then
              acc.map fun q => if q.1 = chunkId then (q.1, q.2 ++ [p.1]) else q
            else
              acc ++ [(chunkId, [p.1])])
          acc)
      []
  chunkNodes.foldl
    (fun b cn =>
      let chunkId := cn.1
      let nodes := cn.2
      ((List.range nodes.length).foldl
        (fun b i =>
          ((List.range (nodes.length - (i + 1))).foldl
            (fun b dj =>
              let j := i + 1 + dj
              let node_1 := nodes.getD i ""
              let node_2 := nodes.getD j ""
              let key := if strLt node_1 node_2 then (node_1, node_2) else (node_2, node_1)
              b.updateEdge key fun d =>
                let rels :=
                  if (d.relations.isEmpty ||
                      !(d.relations.any fun r => r ≠ "contextual proximity")) &&
                     !(d.relations.contains "contextual proximity") then
                    d.relations ++ ["contextual proximity"]
                  else d.relations
                { relations := rels
                  weight := d.weight + 1
                  chunkIds := setInsert d.chunkIds chunkId })
            b))
        b))
    b

/-- `GraphBuilder::get_edges` (lines 243–269): project each aggregated
edge to a single relation phrase — the first non-proximity phrase,
else `"contextual proximity"` if present, else `"related"`. -/
def GraphBuilder.getEdges (b : GraphBuilder) : List GraphEdge :=
  b.edges.map fun p =>
    let relation :=
      match p.2.relations.find? fun r => r ≠ "contextual proximity" with
      | some r => r
      | none =>
        if p.2.relations.contains "contextual proximity" then
          "contextual proximity"
        else "related"
    ⟨p.1.1, p.1.2, relation, p.2.weight, p.2.chunkIds⟩

/-! ## Graph analytics (`src/graph/analytics.rs`)
A petgraph `DiGraph<String, f64>` is modelled by node labels in index
order plus a list of `(source index, target index, weight)` edges in
insertion order.  `f64` is modelled by `ℚ` (see the header). -/

/-- The petgraph graphs the analytics operate on. -/
structure WeightedGraph where
  nodes : List String
  edges : List (Nat × Nat × ℚ)
deriving DecidableEq, Repr

/-- The undirected projection built by `shortest_path` and
`label_propagation`: every directed edge is added unless `find_edge`
already finds an edge between the two endpoints (in either
orientation), so the first weight wins. -/
def undirEdges (edges : List (Nat × Nat × ℚ)) : List (Nat × Nat × ℚ) :=
  edges.foldl
    (fun acc e =>
      if acc.any fun e2 => (e2.1 = e.1 && e2.2.1 = e.2.1) ||
                           (e2.1 = e.2.1 && e2.2.1 = e.1) then acc
      else acc ++ [e])
    []

/-- Edges incident to node `n` in an undirected graph, newest first
(petgraph iterates adjacency newest-first), as
`(other endpoint, weight)`. -/
def incident (edges : List (Nat × Nat × ℚ)) (n : Nat) : List (Nat × ℚ) :=
  edges.reverse.filterMap fun e =>
    if e.1 = n then some (e.2.1, e.2.2)
    else if e.2.1 = n then some (e.1, e.2.2)
    else none

/-- `f64::max` on the rational model (NaN does not arise). -/
def maxQ (a b : ℚ) : ℚ :=
  if a < b then b else a

/-- `f64::abs` on the rational model. -/
def absQ (a : ℚ) : ℚ :=
  if a < 0 then -a else a

/-- The Dijkstra edge cost `1.0 / e.weight().max(0.001)`. -/
def edgeCost (w : ℚ) : ℚ :=
  1 / maxQ w (1 / 1000)

def lookupScore (scores : List (Nat × ℚ)) (n : Nat) : Option ℚ :=
  (scores.find? fun p => p.1 = n).map Prod.snd

def setScore (scores : List (Nat × ℚ)) (n : Nat) (q : ℚ) : List (Nat × ℚ) :=
  if (scores.find? fun p => p.1 = n).isSome then
    scores.map fun p => if p.1 = n then (n, q) else p
  else
    scores ++ [(n, q)]

/-- Pop the minimum-score heap entry (earliest among equal scores). -/
def popMin : List (ℚ × Nat) → Option ((ℚ × Nat) × List (ℚ × Nat))
  | [] => none
  | h :: t =>
    match popMin t with
    | none => some (h, [])
    | some (m, rest) => if h.1 ≤ m.1 then some (h, t) else some (m, h :: rest)

/-- State of petgraph's `dijkstra`: tentative scores, the visited set
and the priority queue. -/
structure DijkState where
  scores : List (Nat × ℚ)
  visited : List Nat
  heap : List (ℚ × Nat)

/-- petgraph `algo::dijkstra` with a goal: pop the cheapest node; skip
it if already visited; stop at the goal; otherwise relax the incident
edges of unvisited neighbours and mark the node visited.  Returns the
score map as it stands (it may hold tentative entries for frontier
nodes, exactly as petgraph's does).  `fuel` bounds the loop; the caller
passes more fuel than the total number of heap pushes, so exhaustion is
unreachable. -/
def dijkstraLoop (edges : List (Nat × Nat × ℚ)) (goal : Nat) :
    Nat → DijkState → List (Nat × ℚ)
  | 0, st => st.scores
  | fuel + 1, st =>
    match popMin st.heap with
    | none => st.scores
    | some (top, rest) =>
      if top.2 ∈ st.visited then
        dijkstraLoop edges goal fuel { st with heap := rest }
      else if top.2 = goal then st.scores
      else
        let st2 :=
          (incident edges top.2).foldl
            (fun (st : DijkState) nb =>
              if nb.1 ∈ st.visited then st
              else
                let nextScore := top.1 + edgeCost nb.2
                match lookupScore st.scores nb.1 with
                | some old =>
                  if nextScore < old then
                    { st with scores := setScore st.scores nb.1 nextScore
                              heap := st.heap ++ [(nextScore, nb.1)] }
                  else st
                | none =>
                  { st with scores := setScore st.scores nb.1 nextScore
                            heap := st.heap ++ [(nextScore, nb.1)] })
            { st with heap := rest }
        dijkstraLoop edges goal fuel { st2 with visited := top.2 :: st2.visited }

def dijkstra (edges : List (Nat × Nat × ℚ)) (start goal fuel : Nat) :
    List (Nat × ℚ) :=
  dijkstraLoop edges goal fuel ⟨[(start, 0)], [], [(0, start)]⟩

/-- `reconstruct_path_undirected` (`src/graph/analytics.rs` lines
143–189): walk back from `dst`, at each step choosing a neighbour whose
cost plus the edge cost matches the current cost within `10⁻⁶`,
tie-broken by the smaller neighbour cost; at most `node_count`
steps. -/
def reconstructGo (edges : List (Nat × Nat × ℚ)) (src : Nat)
    (costs : List (Nat × ℚ)) : Nat → List Nat → Nat → Option (List Nat)
  | 0, _, _ => none
  | fuel + 1, path, current =>
    if current = src then some path.reverse
    else
      match lookupScore costs current with
      | none => none
      | some currentCost =>
        let best :=
          (incident edges current).foldl
            (fun (best : Option (Nat × ℚ)) nb =>
              if nb.1 = current then best
              else
                match lookupScore costs nb.1 with
                | none => best
                | some neighborCost =>
                  let diff := absQ (neighborCost + edgeCost nb.2 - currentCost)
                  if diff < 1 / 1000000 then
                    match best with
                    | none => some (nb.1, neighborCost)
                    | some b =>
                      if neighborCost < b.2 then some (nb.1, neighborCost) else best
                  else best)
            none
        match best with
        | some p => reconstructGo edges src costs fuel (path ++ [p.1]) p.1
        | none => none

def reconstructPathUndirected (edges : List (Nat × Nat × ℚ))
    (nodeCount src dst : Nat) (costs : List (Nat × ℚ)) : Option (List Nat) :=
  if src = dst then some [src]
  else reconstructGo edges src costs nodeCount [dst] dst

/-- `shortest_path` (`src/graph/analytics.rs` lines 84–140): node
lookup is case-insensitive on labels (first match in index order); the
same-label query short-circuits to `(0.0, [label])`; otherwise Dijkstra
on the undirected projection with inverted weights, followed by
predecessor reconstruction. -/
def shortestPath (g : WeightedGraph) (fromLabel toLabel : String) :
    Option (ℚ × List String) :=
  let fl := toLowerStr fromLabel
  let tl := toLowerStr toLabel
  if fl = tl then
    match g.nodes.enum.find? fun p => toLowerStr p.2 = fl with
    | none => none
    | some p => some (0, [p.2])
  else
    let und := undirEdges g.edges
    match g.nodes.enum.find? fun p => toLowerStr p.2 = fl with
    | none => none
    | some fp =>
      match g.nodes.enum.find? fun p => toLowerStr p.2 = tl with
      | none => none
      | some tp =>
        let fuel := 2 * und.length + g.nodes.length + 2
        let costs := dijkstra und fp.1 tp.1 fuel
        match lookupScore costs tp.1 with
        | none => none
        | some cost =>
          match reconstructPathUndirected und g.nodes.length fp.1 tp.1 costs with
          | none => none
          | some path => some (cost, path.map fun i => g.nodes.getD i "")

/-! ## `label_propagation` (`src/graph/community.rs` lines 11–112)
The result `HashMap<NodeIndex, usize>` is modelled as a list indexed by
node: entry `i` is node `i`'s community. -/

/-- Accumulate a weighted vote for `label`. -/
def addVote (votes : List (Nat × ℚ)) (label : Nat) (w : ℚ) : List (Nat × ℚ) :=
  if (votes.find? fun p => p.1 = label).isSome then
    votes.map fun p => if p.1 = label then (p.1, p.2 + w) else p
  else
    votes ++ [(label, w)]

/-- The weighted votes of `ni`'s neighbours (self-loops skipped). -/
def votesFor (und : List (Nat × Nat × ℚ)) (labels : List Nat) (ni : Nat) :
    List (Nat × ℚ) :=
  (incident und ni).foldl
    (fun votes nb =>
      if nb.1 = ni then votes
      else addVote votes (labels.getD nb.1 0) nb.2)
    []

/-- `max_by` with the source's comparator: maximum total weight,
tie-broken by the numerically smaller label (the comparator is a strict
total order on the distinct vote keys, so the maximum is unique and
iteration order is irrelevant). -/
def pickBest (votes : List (Nat × ℚ)) : Option Nat :=
  (votes.foldl
    (fun (best : Option (Nat × ℚ)) v =>
      match best with
      | none => some v
      | some b =>
        if v.2 > b.2 || (v.2 = b.2 && v.1 < b.1) then some v else best)
    none).map Prod.fst

/-- One pass: process nodes in stable index order, each node adopting
the best neighbour label; updates are visible to later nodes of the
same pass. -/
def lpPass (und : List (Nat × Nat × ℚ)) (n : Nat) (labels : List Nat) :
    List Nat :=
  (List.range n).foldl
    (fun labels ni =>
      match pickBest (votesFor und labels ni) with
      | none => labels
      | some best => labels.set ni best)
    labels

/-- Iterate passes up to `max_iterations`, stopping early after a pass
that changes nothing (a pass changes nothing iff it returns the same
label list, since each position is written at most once per pass). -/
def lpIterate (und : List (Nat × Nat × ℚ)) (n : Nat) :
    Nat → List Nat → List Nat
  | 0, labels => labels
  | fuel + 1, labels =>
    let next := lpPass und n labels
    if next = labels then labels else lpIterate und n fuel next

/-- The final remap loop: raw labels become contiguous community IDs in
first-seen order (`community_id_map` with a `next_id` counter). -/
def remapGo : List Nat → List (Nat × Nat) → Nat → List Nat
  | [], _, _ => []
  | l :: ls, m, next =>
    match (m.find? fun p => p.1 = l).map Prod.snd with
    | some c => c :: remapGo ls m next
    | none => next :: remapGo ls ((l, next) :: m) (next + 1)

/-- `label_propagation`: undirected projection, per-node initial
labels, weighted iteration, contiguous remap. -/
def labelPropagation (g : WeightedGraph) (maxIterations : Nat) : List Nat :=
  if g.nodes.length = 0 then []
  else
    let und := undirEdges g.edges
    let n := g.nodes.length
    let finalLabels := lpIterate und n maxIterations (List.range n)
    remapGo finalLabels [] 0

/-- The distinct values of a list in order of first occurrence
(specification device for the contiguity claim). -/
def firstSeenFrom : List Nat → List Nat → List Nat
  | [], _ => []
  | x :: xs, seen =>
    if x ∈ seen then firstSeenFrom xs seen
    else x :: firstSeenFrom xs (x :: seen)

def firstSeen (l : List Nat) : List Nat :=
  firstSeenFrom l []

/-! ## JSON array extraction (`src/llm/parsing.rs`)
Modelled on `List Char` (see the header: character level). -/

/-- Rust `str::find(char)`: index of the first occurrence. -/
def findIdxOf (p : Char → Bool) : List Char → Option Nat
  | [] => none
  | c :: rest => if p c then some 0 else (findIdxOf p rest).map (· + 1)

/-- Rust `str::rfind(&str)`: start index of the last occurrence of
`pat` in `l`. -/
def rfindSub (l pat : List Char) : Option Nat :=
  ((List.range (l.length + 1)).filter fun i => pat.isPrefixOf (l.drop i)).getLast?

/-- One step of `find_matching_bracket`'s scanner (the loop body of
lines 104–130): either the matching `]` is found here (`done`) or the
scan continues with updated `(depth, in_string, escape_next)` state. -/
inductive FmbStep where
  | done : FmbStep
  | cont : Int → Bool → Bool → FmbStep
deriving DecidableEq

def fmbStep (c : Char) (depth : Int) (inString escapeNext : Bool) : FmbStep :=
  if escapeNext then .cont depth inString false
  else if c = '\\' && inString then .cont depth inString true
  else if c = '"' then .cont depth (!inString) escapeNext
  else if inString then .cont depth inString escapeNext
  else if c = '[' then .cont (depth + 1) inString escapeNext
  else if c = ']' then
    if depth - 1 = 0 then .done
    else .cont (depth - 1) inString escapeNext
  else .cont depth inString escapeNext

/-- The scanner of `find_matching_bracket` (lines 99–132), with the
running index made relative: `depth : Int`, string/escape state as in
the source. -/
def fmbGo : List Char → Int → Bool → Bool → Option Nat
  | [], _, _, _ => none
  | c :: rest, depth, inString, escapeNext =>
    match fmbStep c depth inString escapeNext with
    | .done => some 0
    | .cont d2 s2 e2 => (fmbGo rest d2 s2 e2).map (· + 1)

/-- `find_matching_bracket`: index of the `]` matching the first `[`,
or `none` when unbalanced. -/
def findMatchingBracket (s : List Char) : Option Nat :=
  fmbGo s 0 false false

/-- `strip_code_fences` (lines 78–94). -/
def stripCodeFences (s : List Char) : List Char :=
  let s := trimChars s
  if ("```".data).isPrefixOf s then
    match findIdxOf (fun c => c = '\n') s with
    | some firstNewline =>
      let inner := s.drop (firstNewline + 1)
      match rfindSub inner "```".data with
      | some closing => trimChars (inner.take closing)
      | none => s
    | none => s
  else s

/-- Strategies 2 and 3 of `extract_json_array`: first `[` anywhere with
its matching `]`, else the stripped text as-is. -/
def extractFallback (stripped : List Char) : List Char :=
  match findIdxOf (fun c => c = '[') stripped with
  | some start =>
    match findMatchingBracket (stripped.drop start) with
    | some e => (stripped.drop start).take (e + 1)
    | none => stripped
  | none => stripped

/-- `extract_json_array` (lines 53–75). -/
def extractJsonArray (resp : List Char) : List Char :=
  let stripped := stripCodeFences (trimChars resp)
  if stripped.head? = some '[' then
    match findMatchingBracket stripped with
    | some e => stripped.take (e + 1)
    | none => extractFallback stripped
  else extractFallback stripped

/-! ## Concrete instantiations used by counterexamples and witnesses -/

/-- A one-chunk document whose text is `"hello"`. -/
def chunkHello : Chunk := ⟨"hello", 2, 0, none⟩

/-- The relation returned by the oracle below for that chunk. -/
def relHello : Relation := ⟨"a", none, "b", none, "links to"⟩

/-- An LLM oracle that answers the bare chunk text and fails every
other prompt (in particular the batched payload) with a transport
error that matches none of the overflow indicators. -/
def llmNetFail : Llm := fun t =>
  if t = "hello" then .ok [relHello] else .error "network error occurred"

/-- An LLM oracle for which every call — batched or per-chunk —
fails. -/
def llmBoom : Llm := fun _ => .error "boom"

/-- A chunker stub producing one chunk per document (the claims C1/C2
do not constrain the chunker). -/
def splitOneChunk : String → List Chunk := fun t => [⟨t, 1, 0, none⟩]

/-- The triangle graph of spec §8 scenario 5: labels `a`, `b`, `c`,
weights `a-b = 4`, `b-c = 4`, `a-c = 2`. -/
def triangleGraph : WeightedGraph :=
  ⟨["a", "b", "c"], [(0, 1, 4), (1, 2, 4), (0, 2, 2)]⟩

/-! # Theorems -/

/- Batteries marks the `Rat` arithmetic operations `@[irreducible]`,
which blocks `decide` on concrete rational computations; restore the
default reducibility locally so the embedded programs evaluate. -/
attribute [local semireducible] Rat.add Rat.mul Rat.sub Rat.inv

/-- C1 (counterexample).  The claim says a batch error that is *not*
classified as context overflow leaves the batch failed, with no
per-chunk fallback and its relations lost.  Against the code, the
`Err` arm of `process_chunks_in_batches` falls back to per-chunk
processing for *every* batch error: here the batch call fails with
`"network error occurred"` — which matches no overflow indicator — yet
the chunk is reprocessed individually and its relation is kept. -/
theorem C1_counterexample :
    isContextOverflow "network error occurred" = false ∧
    llmNetFail (formatBatchForProcessing [chunkHello] "doc" 0) =
      .error "network error occurred" ∧
    processChunksInBatches llmNetFail 5 [chunkHello] "doc" = [relHello] := by
  refine ⟨by decide, by decide, by decide⟩

/-- C2 (counterexample).  The claim says a document all of whose
batches (and per-chunk fallbacks) fail is omitted from the processed
map.  Against the code, `process_documents` inserts the document
unconditionally: with an oracle that fails every call, the document is
still recorded (with `relations_count = 0`) and no relations are
returned. -/
theorem C2_counterexample :
    processDocuments llmBoom (fun _ => "h") "0" splitOneChunk 5 []
      [("d.md", "body")] = ([("d.md", ⟨"h", 1, 0, "0"⟩)], []) := by
  decide

/-- C3 (code bug).  The spec's lookup table maps `gpt-4o` to 128 000
with first-match-wins in table order (`gpt-4o` before `gpt-4`).  In
`get_context_size` the `gpt-4` arm precedes the `gpt-4o` arm and every
string containing `"gpt-4o"` also contains `"gpt-4"`, so the 128 000
arm is unreachable: the model name `"gpt-4o"` resolves to 8 192. -/
theorem C3_gpt4o_lookup_bug :
    getContextSize "gpt-4o" = 8192 := by
  decide

/-- C4 (confirmed).  Proximity synthesis, spec §8 scenario 1: after
`add_relations [("A","B","links to"), ("A","C","cites")] "ch1"` and
`calculate_contextual_proximity`, there are exactly 3 aggregated edges:
`(a,b)` weight 5 relation `"links to"`, `(a,c)` weight 5 relation
`"cites"`, `(b,c)` weight 1 relation `"contextual proximity"`. -/
theorem C4_proximity_synthesis :
    (((GraphBuilder.new.addRelations
        [⟨"A", none, "B", none, "links to"⟩, ⟨"A", none, "C", none, "cites"⟩]
        "ch1").calculateContextualProximity).getEdges).length = 3 ∧
    (⟨"a", "b", "links to", 5, ["ch1"]⟩ : GraphEdge) ∈
      (((GraphBuilder.new.addRelations
        [⟨"A", none, "B", none, "links to"⟩, ⟨"A", none, "C", none, "cites"⟩]
        "ch1").calculateContextualProximity).getEdges) ∧
    (⟨"a", "c", "cites", 5, ["ch1"]⟩ : GraphEdge) ∈
      (((GraphBuilder.new.addRelations
        [⟨"A", none, "B", none, "links to"⟩, ⟨"A", none, "C", none, "cites"⟩]
        "ch1").calculateContextualProximity).getEdges) ∧
    (⟨"b", "c", "contextual proximity", 1, ["ch1"]⟩ : GraphEdge) ∈
      (((GraphBuilder.new.addRelations
        [⟨"A", none, "B", none, "links to"⟩, ⟨"A", none, "C", none, "cites"⟩]
        "ch1").calculateContextualProximity).getEdges) := by
  decide

/-- C5 (counterexample).  The claim says that when the progress file
exists but cannot be read or parsed, `load_progress` completes
successfully with an empty processed map.  Against the code, both the
read and the parse use `?`: a parse failure propagates as an error (and
the `build` command then aborts through its own `?`). -/
theorem C5_counterexample :
    loadProgress (some "p") (fun _ => true) (fun _ => .ok "not json")
      (fun _ => .error "expected value at line 1 column 1") [] =
      .error "expected value at line 1 column 1" := by
  decide

/-- C6 (confirmed).  Spec §8 scenario 5: on the triangle `a-b-c` with
weights `a-b = 4`, `b-c = 4`, `a-c = 2`, the query `A → C` returns cost
`1/2` and path `[a, c]` — the direct edge wins over the equal-cost
two-hop route through the reconstruction tie-break. -/
theorem C6_triangle_shortest_path :
    shortestPath triangleGraph "A" "C" = some (1 / 2, ["a", "c"]) := by
  decide

/-- C9 (counterexample).  The spec's §6 template puts a blank line
between each chunk's text and the next marker; the code emits a single
newline there (a blank line appears only between the separator line and
the first marker) and a trailing newline after `===END_DOCUMENT===`.
The two formats already differ on a two-chunk batch. -/
theorem C9_counterexample :
    formatBatchForProcessing [⟨"a", 1, 0, none⟩, ⟨"b", 1, 1, none⟩] "s" 0 =
      "Document: s (Batch 0)\n===CHUNK_SEPARATOR===\n\n---CHUNK_0---\na\n---CHUNK_1---\nb\n===END_DOCUMENT===\n" ∧
    specBatchPayload ["a", "b"] "s" 0 =
      "Document: s (Batch 0)\n===CHUNK_SEPARATOR===\n\n---CHUNK_0---\na\n\n---CHUNK_1---\nb\n===END_DOCUMENT===" ∧
    formatBatchForProcessing [⟨"a", 1, 0, none⟩, ⟨"b", 1, 1, none⟩] "s" 0 ≠
      specBatchPayload ["a", "b"] "s" 0 := by
  refine ⟨by decide, by decide, by decide⟩

/-- C10 (counterexample).  The claim quantifies over *every* graph and
label; on a graph that has no node whose lowercased label matches the
query, the same-label lookup fails and `shortest_path` returns `None`,
not `Some (0.0, [x])`. -/
theorem C10_counterexample :
    shortestPath ⟨[], []⟩ "a" "a" = none := by
  decide

/-- C7 (counterexample).  `extract_json_array` is not idempotent: on
this input the first extraction falls back to the fence-stripped text,
which still begins with a code fence; the second extraction strips that
fence again and finds a (still unbalanced) bracket, producing a
different string. -/
theorem C7_counterexample :
    extractJsonArray "```\n```json\n[1\n```\n```".data =
      "```json\n[1\n```".data ∧
    extractJsonArray (extractJsonArray "```\n```json\n[1\n```\n```".data) =
      "[1".data ∧
    extractJsonArray (extractJsonArray "```\n```json\n[1\n```\n```".data) ≠
      extractJsonArray "```\n```json\n[1\n```\n```".data := by
  refine ⟨by decide, by decide, by decide⟩

/-! ## Helper lemmas -/

lemma stringJoinCons (s : String) (l : List String) :
    String.join (s :: l) = s ++ String.join l := by
  apply String.ext
  simp

lemma foldlAppendEqJoin (f : α → String) (l : List α) (init : String) :
    l.foldl (fun acc x => acc ++ f x) init = init ++ String.join (l.map f) := by
  induction l generalizing init with
  | nil => simp [String.join]
  | cons a t ih =>
    simp only [List.foldl_cons, List.map_cons, ih, stringJoinCons,
      String.append_assoc]

/-- C9 (amended).  The payload produced by the code, characterised
compositionally: the header line, the separator line, then for each
chunk `i` the block `"\n---CHUNK_<i>---\n" ++ text` — so a chunk's text
is followed by a single newline before the next marker (a blank line
appears only between the separator line and the first marker, from the
leading newline of the first block), and the payload ends with a
newline after the `===END_DOCUMENT===` line. -/
theorem C9_payload_format (chunks : List Chunk) (source : String)
    (batchIdx : Nat) :
    formatBatchForProcessing chunks source batchIdx =
      "Document: " ++ source ++ " (Batch " ++ toString batchIdx ++ ")" ++
      "\n===CHUNK_SEPARATOR===\n" ++
      String.join ((chunks.enum).map fun ic =>
        "\n---CHUNK_" ++ toString ic.1 ++ "---\n" ++ ic.2.text) ++
      "\n===END_DOCUMENT===\n" := by
  simp only [formatBatchForProcessing, foldlAppendEqJoin, String.append_assoc]

/-- `find?` over `enumFrom` finds a satisfying element whenever one
exists in the underlying list. -/
lemma findEnumFromPred (p : String → Bool) :
    ∀ (l : List String) (n : Nat), (∃ x ∈ l, p x = true) →
    ∃ i lab, ((List.enumFrom n l).find? fun q => p q.2) = some (i, lab) ∧
      lab ∈ l ∧ p lab = true := by
  intro l
  induction l with
  | nil => rintro n ⟨x, hx, -⟩; exact absurd hx (List.not_mem_nil x)
  | cons a t ih =>
    rintro n ⟨x, hx, hpx⟩
    by_cases hpa : p a = true
    · exact ⟨n, a, by simp [List.find?, hpa], List.mem_cons_self a t, hpa⟩
    · have hxt : x ∈ t := by
        rcases List.mem_cons.mp hx with h | h
        · exact absurd (h ▸ hpx) hpa
        · exact h
      obtain ⟨i, lab, hfind, hmem, hp⟩ := ih (n + 1) ⟨x, hxt, hpx⟩
      refine ⟨i, lab, ?_, List.mem_cons_of_mem a hmem, hp⟩
      simp [List.find?, hpa, hfind]

/-- C10 (amended).  The universal claim fails for labels absent from
the graph (see the counterexample); restricted to graphs that contain a
node matching the queried label case-insensitively, the same-label
query returns cost `0` and a single-element path holding the matched
node's stored label (the first match in index order — which need not be
`x` verbatim when the stored case differs). -/
theorem C10_same_label_query (g : WeightedGraph) (x lab : String)
    (hmem : lab ∈ g.nodes) (hlab : toLowerStr lab = toLowerStr x) :
    ∃ lab₂, lab₂ ∈ g.nodes ∧ toLowerStr lab₂ = toLowerStr x ∧
      shortestPath g x x = some (0, [lab₂]) := by
  obtain ⟨i, lab₂, hfind, hmem₂, hp⟩ :=
    findEnumFromPred (fun s => decide (toLowerStr s = toLowerStr x)) g.nodes 0
      ⟨lab, hmem, by simp [hlab]⟩
  refine ⟨lab₂, hmem₂, by simpa using hp, ?_⟩
  simp only [shortestPath, List.enum, if_pos rfl]
  rw [hfind]
  simp

/-- C10 (witness). -/
theorem C10_witness :
    ∃ lab₂, lab₂ ∈ (⟨["a"], []⟩ : WeightedGraph).nodes ∧
      toLowerStr lab₂ = toLowerStr "A" ∧
      shortestPath ⟨["a"], []⟩ "A" "A" = some (0, [lab₂]) :=
  C10_same_label_query ⟨["a"], []⟩ "A" "a" (by decide) (by decide)

/-- C5 (amended).  When the progress file exists but reading it or
parsing it fails, `load_progress` returns that error (it never
completes successfully with an empty map); the `?` at the call site in
the `build` command then aborts the run. -/
theorem C5_load_error_propagates (fileExists : String → Bool)
    (readFile : String → Except String String)
    (parse : String → Except String ProgressMap) (current : ProgressMap)
    (path e : String) (hex : fileExists path = true)
    (h : readFile path = .error e ∨
         ∃ content, readFile path = .ok content ∧ parse content = .error e) :
    loadProgress (some path) fileExists readFile parse current = .error e := by
  simp only [loadProgress, hex, if_true]
  rcases h with h | ⟨content, hread, hparse⟩
  · rw [h]
  · rw [hread]
    simp only []
    rw [hparse]

/-- C5 (witness). -/
theorem C5_witness :
    loadProgress (some "p") (fun _ => true) (fun _ => .ok "not json")
      (fun _ => .error "bad") [] = .error "bad" :=
  C5_load_error_propagates (fun _ => true) (fun _ => .ok "not json")
    (fun _ => .error "bad") [] "p" "bad" rfl (Or.inr ⟨"not json", rfl, rfl⟩)

lemma isAlreadyProcessed_isSome {m : ProgressMap} {source hash : String}
    (h : isAlreadyProcessed m source hash = true) :
    (mapGet m source).isSome = true := by
  unfold isAlreadyProcessed at h
  cases hm : mapGet m source with
  | none => rw [hm] at h; exact absurd h (by simp)
  | some doc => simp

lemma mapGet_mapInsert_isSome (m : ProgressMap) (k : String)
    (v : ProcessedDoc) (s : String) (h : k = s ∨ (mapGet m s).isSome = true) :
    (mapGet (mapInsert m k v) s).isSome = true := by
  rcases h with h | h
  · simp [mapInsert, mapGet, List.find?, h]
  · by_cases hk : k = s
    · simp [mapInsert, mapGet, List.find?, hk]
    · simpa [mapInsert, mapGet, List.find?, hk] using h

lemma processDocumentsStep_preserves (llm : Llm) (hashFn : String → String)
    (ts : String) (split : String → List Chunk) (bs : Nat)
    (st : ProgressMap × List Relation) (doc : String × String) (s : String)
    (h : (mapGet st.1 s).isSome = true) :
    (mapGet (processDocumentsStep llm hashFn ts split bs st doc).1 s).isSome
      = true := by
  unfold processDocumentsStep
  by_cases hskip : isAlreadyProcessed st.1 doc.1 (hashFn doc.2) = true
  · simpa [hskip] using h
  · simp only [hskip, if_false, Bool.false_eq_true]
    exact mapGet_mapInsert_isSome _ _ _ _ (Or.inr h)

lemma processDocuments_foldl_preserves (llm : Llm) (hashFn : String → String)
    (ts : String) (split : String → List Chunk) (bs : Nat) (s : String) :
    ∀ (docs : List (String × String)) (st : ProgressMap × List Relation),
    (mapGet st.1 s).isSome = true →
    (mapGet (docs.foldl (processDocumentsStep llm hashFn ts split bs) st).1
      s).isSome = true := by
  intro docs
  induction docs with
  | nil => intro st h; exact h
  | cons d t ih =>
    intro st h
    exact ih _ (processDocumentsStep_preserves llm hashFn ts split bs st d s h)

/-- C2 (amended).  `process_documents` records *every* input document
in the processed map: a document whose batches (and per-chunk
fallbacks) all fail is still inserted — with `relations_count = 0` —
rather than omitted, so it is written to the progress file and will be
skipped, not retried, on the next run. -/
theorem C2_document_always_recorded (llm : Llm) (hashFn : String → String)
    (ts : String) (split : String → List Chunk) (bs : Nat)
    (processed : ProgressMap) (docs : List (String × String))
    (s t : String) (hmem : (s, t) ∈ docs) :
    (mapGet (processDocuments llm hashFn ts split bs processed docs).1
      s).isSome = true := by
  obtain ⟨pre, post, rfl⟩ := List.mem_iff_append.mp hmem
  unfold processDocuments
  rw [List.foldl_append, List.foldl_cons]
  apply processDocuments_foldl_preserves
  set st := pre.foldl (processDocumentsStep llm hashFn ts split bs)
    (processed, []) with hst
  unfold processDocumentsStep
  by_cases hskip : isAlreadyProcessed st.1 (s, t).1 (hashFn (s, t).2) = true
  · simpa [hskip] using isAlreadyProcessed_isSome hskip
  · simp only [hskip, if_false, Bool.false_eq_true]
    exact mapGet_mapInsert_isSome _ _ _ _ (Or.inl rfl)

/-- C2 (amended, witness). -/
theorem C2_witness :
    (mapGet (processDocuments llmBoom (fun _ => "h") "0" splitOneChunk 5 []
      [("d.md", "body")]).1 "d.md").isSome = true :=
  C2_document_always_recorded llmBoom (fun _ => "h") "0" splitOneChunk 5 []
    [("d.md", "body")] "d.md" "body" (List.mem_singleton.mpr rfl)

lemma foldlAppendEqFlatten (g : α → List β) (l : List α) (acc : List β) :
    l.foldl (fun a x => a ++ g x) acc = acc ++ (l.map g).flatten := by
  induction l generalizing acc with
  | nil => simp
  | cons a t ih => simp [ih, List.append_assoc]

/-- `process_chunks_in_batches` is the concatenation of the per-batch
outputs. -/
lemma processChunksInBatches_eq_flatten (llm : Llm) (bs : Nat)
    (chunks : List Chunk) (source : String) :
    processChunksInBatches llm bs chunks source =
      (((chunksOf bs chunks).enum).map (batchOutput llm source)).flatten := by
  unfold processChunksInBatches
  have hinner : ∀ (batch : List Chunk) (acc : List Relation),
      batch.foldl
        (fun acc2 chunk =>
          match processSingleChunk llm chunk with
          | .ok relations => acc2 ++ relations
          | .error _ => acc2) acc =
      acc ++ (batch.map (chunkFallbackOutput llm)).flatten := by
    intro batch
    induction batch with
    | nil => intro acc; simp
    | cons c t ih =>
      intro acc
      simp only [List.foldl_cons, List.map_cons, List.flatten_cons]
      cases hc : processSingleChunk llm c with
      | ok rs => rw [ih, chunkFallbackOutput, hc, List.append_assoc]
      | error e => rw [ih, chunkFallbackOutput, hc]; simp
  have houter : ∀ (l : List (Nat × List Chunk)) (acc : List Relation),
      l.foldl
        (fun allRelations ib =>
          match processBatchWithRetry llm
              (formatBatchForProcessing ib.2 source ib.1) with
          | .ok relations => allRelations ++ relations
          | .error _ =>
            ib.2.foldl
              (fun acc2 chunk =>
                match processSingleChunk llm chunk with
                | .ok relations => acc2 ++ relations
                | .error _ => acc2) allRelations) acc =
      acc ++ (l.map (batchOutput llm source)).flatten := by
    intro l
    induction l with
    | nil => intro acc; simp
    | cons ib t ih =>
      intro acc
      simp only [List.foldl_cons, List.map_cons, List.flatten_cons]
      cases hb : processBatchWithRetry llm
          (formatBatchForProcessing ib.2 source ib.1) with
      | ok rs => rw [ih, batchOutput, hb, List.append_assoc]
      | error e => rw [hinner, ih, batchOutput, hb, List.append_assoc]
  exact houter _ []

/-- C1 (amended).  The `Err` arm of `process_chunks_in_batches` falls
back to per-chunk processing on *every* batch error, overflow-classified
or not (the overflow check only relabels the propagated message): if
the LLM call for batch `i` fails with any error `e`, then every
relation produced by a successful individual call on one of that
batch's chunks appears in the output — the batch's relations are not
lost. -/
theorem C1_fallback_on_any_error (llm : Llm) (bs : Nat)
    (chunks : List Chunk) (source : String) (i : Nat) (batch : List Chunk)
    (e : String)
    (hbatch : (i, batch) ∈ (chunksOf bs chunks).enum)
    (herr : llm (formatBatchForProcessing batch source i) = .error e)
    (chunk : Chunk) (hchunk : chunk ∈ batch) (rs : List Relation)
    (hok : llm chunk.text = .ok rs) (r : Relation) (hr : r ∈ rs) :
    r ∈ processChunksInBatches llm bs chunks source := by
  rw [processChunksInBatches_eq_flatten]
  apply List.mem_flatten.mpr
  refine ⟨batchOutput llm source (i, batch),
    List.mem_map_of_mem (batchOutput llm source) hbatch, ?_⟩
  have hretry : processBatchWithRetry llm
      (formatBatchForProcessing batch source i) =
      .error (if isContextOverflow (toLowerStr e) then
        "Context overflow, needs fallback" else e) := by
    rw [processBatchWithRetry, herr]
    by_cases hov : isContextOverflow (toLowerStr e) = true
    · simp [hov]
    · simp [hov]
  rw [batchOutput]
  simp only [hretry]
  apply List.mem_flatten.mpr
  refine ⟨chunkFallbackOutput llm chunk,
    List.mem_map_of_mem (chunkFallbackOutput llm) hchunk, ?_⟩
  rw [chunkFallbackOutput, processSingleChunk, hok]
  exact hr

/-- C1 (amended, witness). -/
theorem C1_witness :
    relHello ∈ processChunksInBatches llmNetFail 5 [chunkHello] "doc" :=
  C1_fallback_on_any_error llmNetFail 5 [chunkHello] "doc" 0 [chunkHello]
    "network error occurred" (by decide) (by decide) chunkHello
    (List.mem_singleton.mpr rfl) [relHello] (by decide) relHello
    (List.mem_singleton.mpr rfl)

lemma remapGo_length : ∀ (ls : List Nat) (m : List (Nat × Nat)) (next : Nat),
    (remapGo ls m next).length = ls.length := by
  intro ls
  induction ls with
  | nil => intro m next; rfl
  | cons l t ih =>
    intro m next
    unfold remapGo
    cases (m.find? fun p => p.1 = l).map Prod.snd with
    | some c => simp [ih]
    | none => simp [ih]

lemma lpPass_length (und : List (Nat × Nat × ℚ)) (n : Nat)
    (labels : List Nat) : (lpPass und n labels).length = labels.length := by
  unfold lpPass
  generalize List.range n = idxs
  induction idxs generalizing labels with
  | nil => rfl
  | cons i t ih =>
    simp only [List.foldl_cons]
    cases pickBest (votesFor und labels i) with
    | none => exact ih labels
    | some best => rw [ih]; simp

lemma lpIterate_length (und : List (Nat × Nat × ℚ)) (n : Nat) :
    ∀ (fuel : Nat) (labels : List Nat),
    (lpIterate und n fuel labels).length = labels.length := by
  intro fuel
  induction fuel with
  | zero => intro labels; rfl
  | succ f ih =>
    intro labels
    unfold lpIterate
    by_cases h : lpPass und n labels = labels
    · simp [h]
    · simp only [h, if_false]
      rw [ih, lpPass_length]

/-- The remap loop emits fresh ids `next, next+1, …` in order: provided
every id recorded in `m` has already been emitted (`seen`) and every
emitted id is below `next`, the first-seen distinct values of the
output form the contiguous block starting at `next`. -/
lemma remapGo_firstSeenFrom :
    ∀ (ls : List Nat) (m : List (Nat × Nat)) (next : Nat) (seen : List Nat),
    (∀ l c, (m.find? fun p => p.1 = l).map Prod.snd = some c → c ∈ seen) →
    (∀ c, c ∈ seen → c < next) →
    ∃ k, firstSeenFrom (remapGo ls m next) seen = List.range' next k := by
  intro ls
  induction ls with
  | nil => intro m next seen _ _; exact ⟨0, rfl⟩
  | cons l t ih =>
    intro m next seen h1 h2
    cases hfind : (m.find? fun p => p.1 = l).map Prod.snd with
    | some c =>
      have hc : c ∈ seen := h1 l c hfind
      obtain ⟨k, hk⟩ := ih m next seen h1 h2
      refine ⟨k, ?_⟩
      unfold remapGo
      rw [hfind]
      simpa [firstSeenFrom, hc] using hk
    | none =>
      have hnext : next ∉ seen := fun h => absurd (h2 next h) (lt_irrefl next)
      have h1' : ∀ l2 c, (((l, next) :: m).find? fun p => p.1 = l2).map
          Prod.snd = some c → c ∈ next :: seen := by
        intro l2 c hf
        by_cases hl : l = l2
        · rw [List.find?_cons_of_pos _ (by simpa using hl)] at hf
          simp only [Option.map_some', Option.some.injEq] at hf
          exact hf ▸ List.mem_cons_self _ _
        · rw [List.find?_cons_of_neg _ (by simpa using hl)] at hf
          exact List.mem_cons_of_mem _ (h1 l2 c hf)
      have h2' : ∀ c, c ∈ next :: seen → c < next + 1 := by
        intro c hc
        rcases List.mem_cons.mp hc with rfl | hc
        · omega
        · exact Nat.lt_succ_of_lt (h2 c hc)
      obtain ⟨k, hk⟩ := ih ((l, next) :: m) (next + 1) (next :: seen) h1' h2'
      refine ⟨k + 1, ?_⟩
      unfold remapGo
      rw [hfind]
      simp only [firstSeenFrom, hnext, if_false, List.range'_succ]
      simpa using hk

/-- C8 (confirmed).  `label_propagation`'s community assignment has one
entry per node (indexed in stable order), and the assigned IDs are
exactly the contiguous range `0 … k−1`, appearing in increasing order
as one scans the nodes in index order — i.e. the raw labels were
remapped in first-seen order.  The embedding is a pure function of the
graph, so two runs coincide by construction; the source's
weight-then-smaller-label tie-break makes the chosen maximum unique,
hence independent of hash-map iteration order. -/
theorem C8_communities_contiguous_first_seen (g : WeightedGraph)
    (maxIterations : Nat) :
    (labelPropagation g maxIterations).length = g.nodes.length ∧
    firstSeen (labelPropagation g maxIterations) =
      List.range (firstSeen (labelPropagation g maxIterations)).length := by
  constructor
  · unfold labelPropagation
    by_cases h : g.nodes.length = 0
    · simp [h]
    · simp only [h, if_false]
      rw [remapGo_length, lpIterate_length, List.length_range]
  · unfold labelPropagation
    by_cases h : g.nodes.length = 0
    · simp [h, firstSeen, firstSeenFrom]
    · simp only [h, if_false]
      obtain ⟨k, hk⟩ := remapGo_firstSeenFrom
        (lpIterate (undirEdges g.edges) g.nodes.length maxIterations
          (List.range g.nodes.length)) [] 0 []
        (by intro l c hf; simp [List.find?] at hf)
        (by intro c hc; exact absurd hc (List.not_mem_nil c))
      rw [firstSeen, hk, List.length_range', ← List.range_eq_range']

/-! ## Lemmas for C7: the extraction scanner and trimming -/

lemma fmbStep_done_char {c : Char} {d : Int} {inS esc : Bool}
    (h : fmbStep c d inS esc = .done) : c = ']' := by
  unfold fmbStep at h
  split_ifs at h with h1 h2 h3 h4 h5 h6 h7
  all_goals simp_all

lemma fmbGo_getElem : ∀ (l : List Char) (d : Int) (inS esc : Bool) (e : Nat),
    fmbGo l d inS esc = some e → l[e]? = some ']' := by
  intro l
  induction l with
  | nil => intro d inS esc e h; simp [fmbGo] at h
  | cons c rest ih =>
    intro d inS esc e h
    unfold fmbGo at h
    cases hstep : fmbStep c d inS esc with
    | done =>
      rw [hstep] at h
      simp only [Option.some.injEq] at h
      subst h
      simp [fmbStep_done_char hstep]
    | cont d2 s2 e2 =>
      rw [hstep] at h
      obtain ⟨e', he', heq⟩ := Option.map_eq_some'.mp h
      subst heq
      simpa using ih d2 s2 e2 e' he'

lemma fmbGo_take : ∀ (l : List Char) (d : Int) (inS esc : Bool) (e : Nat),
    fmbGo l d inS esc = some e →
    fmbGo (l.take (e + 1)) d inS esc = some e := by
  intro l
  induction l with
  | nil => intro d inS esc e h; simp [fmbGo] at h
  | cons c rest ih =>
    intro d inS esc e h
    unfold fmbGo at h
    cases hstep : fmbStep c d inS esc with
    | done =>
      rw [hstep] at h
      simp only [Option.some.injEq] at h
      subst h
      simp [fmbGo, hstep]
    | cont d2 s2 e2 =>
      rw [hstep] at h
      obtain ⟨e', he', heq⟩ := Option.map_eq_some'.mp h
      subst heq
      rw [List.take_succ_cons]
      unfold fmbGo
      rw [hstep]
      dsimp only
      rw [ih d2 s2 e2 e' he']
      rfl

lemma dropWhile_eq_self_of_head (p : α → Bool) (l : List α)
    (h : ∀ a, l.head? = some a → p a = false) : l.dropWhile p = l := by
  cases l with
  | nil => rfl
  | cons a t => simp [List.dropWhile_cons, h a rfl]

lemma head?_dropWhile_not_sat (p : α → Bool) :
    ∀ (l : List α) (a : α), (l.dropWhile p).head? = some a → p a = false := by
  intro l
  induction l with
  | nil => intro a h; simp [List.dropWhile] at h
  | cons x t ih =>
    intro a h
    rw [List.dropWhile_cons] at h
    by_cases hp : p x = true
    · rw [if_pos hp] at h; exact ih a h
    · rw [if_neg hp] at h
      simp only [List.head?_cons, Option.some.injEq] at h
      subst h
      simpa using hp

lemma trimChars_eq_self (l : List Char)
    (h1 : ∀ a, l.head? = some a → rustWhitespace a = false)
    (h2 : ∀ a, l.getLast? = some a → rustWhitespace a = false) :
    trimChars l = l := by
  unfold trimChars
  rw [dropWhile_eq_self_of_head _ _ h1,
    dropWhile_eq_self_of_head _ _
      (fun a ha => h2 a (by rwa [List.head?_reverse] at ha)),
    List.reverse_reverse]

lemma trimChars_head_not_ws (l : List Char) :
    ∀ a, (trimChars l).head? = some a → rustWhitespace a = false := by
  intro a ha
  unfold trimChars at ha
  set A := l.dropWhile rustWhitespace with hA
  set B := A.reverse.dropWhile rustWhitespace with hB
  have hpre : B.reverse <+: A := by
    have hsuf : B <:+ A.reverse := List.dropWhile_suffix _
    have := hsuf.reverse
    rwa [List.reverse_reverse] at this
  obtain ⟨rest, hrest⟩ := hpre
  have hA' : A.head? = some a := by
    rw [← hrest, List.head?_append, ha]
    rfl
  exact head?_dropWhile_not_sat _ _ a hA'

lemma trimChars_getLast_not_ws (l : List Char) :
    ∀ a, (trimChars l).getLast? = some a → rustWhitespace a = false := by
  intro a ha
  unfold trimChars at ha
  rw [← List.head?_reverse, List.reverse_reverse] at ha
  exact head?_dropWhile_not_sat _ _ a ha

lemma trimChars_idem (l : List Char) :
    trimChars (trimChars l) = trimChars l :=
  trimChars_eq_self _ (trimChars_head_not_ws l) (trimChars_getLast_not_ws l)

lemma trimChars_stripCodeFences (l : List Char) :
    trimChars (stripCodeFences l) = stripCodeFences l := by
  unfold stripCodeFences
  by_cases hp : ("```".data).isPrefixOf (trimChars l) = true
  · simp only [hp, if_true]
    cases h1 : findIdxOf (fun c => c = '\n') (trimChars l) with
    | none => dsimp only; exact trimChars_idem l
    | some fn =>
      dsimp only
      cases h2 : rfindSub ((trimChars l).drop (fn + 1)) "```".data with
      | none => dsimp only; exact trimChars_idem l
      | some closing => dsimp only; exact trimChars_idem _
  · simp only [hp, Bool.false_eq_true, if_false]
    exact trimChars_idem l

lemma not_prefix_backticks {l : List Char} (h : l.head? = some '[') :
    ("```".data).isPrefixOf l = false := by
  cases l with
  | nil => simp at h
  | cons a t =>
    simp only [List.head?_cons, Option.some.injEq] at h
    subst h
    rw [show ("```".data) = ['`', '`', '`'] from rfl]
    simp only [List.isPrefixOf]
    rw [show (('`' : Char) == '[') = false from rfl, Bool.false_and]

lemma stripCodeFences_eq_self_of_head_bracket {l : List Char}
    (htrim : trimChars l = l) (h : l.head? = some '[') :
    stripCodeFences l = l := by
  unfold stripCodeFences
  rw [htrim]
  dsimp only
  rw [not_prefix_backticks h]
  simp

lemma head?_take_succ (l : List α) (n : Nat) :
    (l.take (n + 1)).head? = l.head? := by
  cases l <;> rfl

/-- The branch structure of `extract_json_array`, written out. -/
lemma extractJsonArray_eq (s : List Char) :
    extractJsonArray s =
      if (stripCodeFences (trimChars s)).head? = some '[' then
        match findMatchingBracket (stripCodeFences (trimChars s)) with
        | some e => (stripCodeFences (trimChars s)).take (e + 1)
        | none => extractFallback (stripCodeFences (trimChars s))
      else extractFallback (stripCodeFences (trimChars s)) := rfl

lemma findIdxOf_head_bracket {l : List Char} (h : l.head? = some '[') :
    findIdxOf (fun c => c = '[') l = some 0 := by
  cases l with
  | nil => simp at h
  | cons a t =>
    simp only [List.head?_cons, Option.some.injEq] at h
    subst h
    simp [findIdxOf]

lemma findIdxOf_getElem (p : Char → Bool) :
    ∀ (l : List Char) (i : Nat),
    findIdxOf p l = some i → ∃ c, l[i]? = some c ∧ p c = true := by
  intro l
  induction l with
  | nil => intro i h; simp [findIdxOf] at h
  | cons a t ih =>
    intro i h
    unfold findIdxOf at h
    by_cases hp : p a = true
    · rw [if_pos hp] at h
      simp only [Option.some.injEq] at h
      subst h
      exact ⟨a, by simp, hp⟩
    · rw [if_neg hp] at h
      obtain ⟨i', hi', heq⟩ := Option.map_eq_some'.mp h
      subst heq
      obtain ⟨c, hc, hpc⟩ := ih i' hi'
      exact ⟨c, by simpa using hc, hpc⟩

/-- When the list starts with `[` whose matching `]` closes it exactly,
`extract_json_array` returns the list unchanged. -/
lemma extract_fixed_of_bracket (t : List Char) (e : Nat)
    (hh : t.head? = some '[') (hfmb : findMatchingBracket t = some e)
    (hlen : t.length = e + 1) : extractJsonArray t = t := by
  have hws1 : ∀ a, t.head? = some a → rustWhitespace a = false := by
    intro a ha
    rw [hh] at ha
    simp only [Option.some.injEq] at ha
    subst ha
    decide
  have hlast : t.getLast? = some ']' := by
    rw [List.getLast?_eq_getElem?, hlen]
    simpa using fmbGo_getElem t 0 false false e hfmb
  have hws2 : ∀ a, t.getLast? = some a → rustWhitespace a = false := by
    intro a ha
    rw [hlast] at ha
    simp only [Option.some.injEq] at ha
    subst ha
    decide
  have htrim : trimChars t = t := trimChars_eq_self t hws1 hws2
  have hstrip : stripCodeFences t = t :=
    stripCodeFences_eq_self_of_head_bracket htrim hh
  rw [extractJsonArray_eq, htrim, hstrip, if_pos hh, hfmb]
  dsimp only
  rw [← hlen, List.take_length]

/-- When strategy 1 cannot fire, `extract_json_array` is the fallback
computation. -/
lemma extract_eq_fallback_of_no_strategy1 (t : List Char)
    (htrim : trimChars t = t) (hstrip : stripCodeFences t = t)
    (hno : t.head? = some '[' → findMatchingBracket t = none) :
    extractJsonArray t = extractFallback t := by
  rw [extractJsonArray_eq, htrim, hstrip]
  by_cases hh : t.head? = some '['
  · rw [if_pos hh, hno hh]
  · rw [if_neg hh]

/-- C7 (amended).  Idempotence fails in general (see the
counterexample), but holds whenever the first extraction's result is
fence-free — `strip_code_fences` leaves it unchanged — which covers
every result produced by the two bracket-matching strategies and every
fallback result not wrapped in a further markdown fence. -/
theorem C7_extract_idempotent_after_fence_strip (s : List Char)
    (h : stripCodeFences (extractJsonArray s) = extractJsonArray s) :
    extractJsonArray (extractJsonArray s) = extractJsonArray s := by
  have htrimmed : trimChars (stripCodeFences (trimChars s)) =
      stripCodeFences (trimChars s) := trimChars_stripCodeFences _
  set stripped := stripCodeFences (trimChars s) with hstr
  by_cases hh : stripped.head? = some '['
  · cases hfmb : findMatchingBracket stripped with
    | some e =>
      have hres : extractJsonArray s = stripped.take (e + 1) := by
        rw [extractJsonArray_eq, ← hstr, if_pos hh, hfmb]
      rw [hres]
      have hlt : e < stripped.length := by
        obtain ⟨hlt, -⟩ := List.getElem?_eq_some.mp
          (fmbGo_getElem stripped 0 false false e hfmb)
        exact hlt
      apply extract_fixed_of_bracket _ e
      · rw [head?_take_succ]; exact hh
      · exact fmbGo_take stripped 0 false false e hfmb
      · rw [List.length_take]; omega
    | none =>
      have hfb : extractFallback stripped = stripped := by
        unfold extractFallback
        rw [findIdxOf_head_bracket hh]
        simp only [List.drop_zero, hfmb]
      have hres : extractJsonArray s = stripped := by
        rw [extractJsonArray_eq, ← hstr, if_pos hh, hfmb, hfb]
      rw [hres] at h ⊢
      rw [extract_eq_fallback_of_no_strategy1 stripped htrimmed h
        (fun _ => hfmb), hfb]
  · have hres0 : extractJsonArray s = extractFallback stripped := by
      rw [extractJsonArray_eq, ← hstr, if_neg hh]
    cases hfi : findIdxOf (fun c => c = '[') stripped with
    | some start =>
      cases hfmb2 : findMatchingBracket (stripped.drop start) with
      | some e =>
        have hres : extractJsonArray s = (stripped.drop start).take (e + 1) := by
          rw [hres0]
          unfold extractFallback
          simp only [hfi, hfmb2]
        rw [hres]
        have hhd : (stripped.drop start).head? = some '[' := by
          obtain ⟨c, hc, hpc⟩ := findIdxOf_getElem _ stripped start hfi
          simp only [decide_eq_true_eq] at hpc
          subst hpc
          rw [List.head?_drop, hc]
        have hlt : e < (stripped.drop start).length := by
          obtain ⟨hlt, -⟩ := List.getElem?_eq_some.mp
            (fmbGo_getElem _ 0 false false e hfmb2)
          exact hlt
        apply extract_fixed_of_bracket _ e
        · rw [head?_take_succ]; exact hhd
        · exact fmbGo_take _ 0 false false e hfmb2
        · rw [List.length_take]; omega
      | none =>
        have hfb : extractFallback stripped = stripped := by
          unfold extractFallback
          simp only [hfi, hfmb2]
        have hres : extractJsonArray s = stripped := by rw [hres0, hfb]
        rw [hres] at h ⊢
        rw [extract_eq_fallback_of_no_strategy1 stripped htrimmed h
          (fun hh2 => absurd hh2 hh), hfb]
    | none =>
      have hfb : extractFallback stripped = stripped := by
        unfold extractFallback
        simp only [hfi]
      have hres : extractJsonArray s = stripped := by rw [hres0, hfb]
      rw [hres] at h ⊢
      rw [extract_eq_fallback_of_no_strategy1 stripped htrimmed h
        (fun hh2 => absurd hh2 hh), hfb]

/-- C7 (amended, witness). -/
theorem C7_witness :
    stripCodeFences (extractJsonArray "[1]".data) =
      extractJsonArray "[1]".data ∧
    extractJsonArray (extractJsonArray "[1]".data) =
      extractJsonArray "[1]".data :=
  ⟨by decide, C7_extract_idempotent_after_fence_strip "[1]".data (by decide)⟩

end RKnowledge



